import Mathlib

/-!
Verification of the tiny-iterator sequential iteration controller
(source: `src/lib/iterator.js`).

The source is a singleton-state resumable walk over an array: `iterate`
resets a process-wide `internals` record, validates its arguments, and
starts the walk; each step receives a `next` continuation (closing over a
mutable index variable `i`, post-incremented on every call) carrying an
attached `abort` handle bound to the index at mint time.

The shallow embedding below models:
  - JS values as `Option V` with `none` playing the role of `undefined`;
  - the JS array cell assignment `arr[i] = v` (which extends the array,
    filling holes, when `i ≥ arr.length`) as `jsSet`;
  - the `internals` singleton as a `Machine` record (`items` is
    `Option (List (JVal V))`, with `none` for JS `null`);
  - the user step function as a policy `StepFn` that, at every
    invocation, either synchronously calls its `next` handle, calls the
    attached `abort` handle, or returns without calling either (`halt`,
    the case in which the handle is retained for a later external call);
  - a `next` handle as its mutable index cell: invoking a handle whose
    cell currently holds `cell` is `run fuel m (Call.nxt cell arg)`,
    which returns the updated cell (the source post-increments `i`);
  - an `abort` handle as its immutable bound index: invoking it is
    `invokeAbort m i arg`;
  - calls of the stored step function and of the stored done callback as
    an event log (`Ev`), with the function objects identified by numeric
    tags, since JS function identity is observable;
  - JS exceptions (the `TypeError`s thrown by validation, and accesses
    through `null` internals) as an `Option JsError` result component;
    `JsError.outOfFuel` is an artifact of the fuel-indexed recursion and
    never occurs in any theorem below (sufficient fuel is always given).
-/

namespace TinyIterator

/-- JS value: `none` models `undefined` (both an absent argument and the
`undefined` value, which JS cannot distinguish at `typeof` checks). -/
abbrev JVal (V : Type) := Option V

/-- Synchronous behaviour of one invocation of the user step function
`fn(i, value, next)`: call `next(arg)`, call `next.abort(arg)`, or return
without calling either (retaining the handles). -/
inductive StepCmd (V : Type) where
  | advance (arg : JVal V)
  | abort (arg : JVal V)
  | halt
deriving DecidableEq, Repr

/-- Policy of the user step function: what it does, synchronously, when
invoked with an index and the current value there. -/
abbrev StepFn (V : Type) := Nat → JVal V → StepCmd V

/-- Contents of the `internals.done` slot: `null` (after `reset`), the
substituted `noop`, or a user callback identified by a tag. -/
inductive DoneSlot where
  | null
  | noop
  | cb (tag : Nat)
deriving DecidableEq, Repr

/-- Observable calls made by the controller: invocations of the stored
step function (tagged, with index and the value passed) and invocations
of the stored done callback (with the items passed to it). -/
inductive Ev (V : Type) where
  | stepCall (fnTag : Nat) (i : Nat) (v : JVal V)
  | doneCall (slot : DoneSlot) (items : Option (List (JVal V)))
deriving DecidableEq, Repr

/-- JS exceptions of the embedded program. `itemsNotArray`,
`fnNotFunction` and `doneNotFunction` are the three validation
`TypeError`s; `nullAccess` is a `TypeError` from touching a `null`
internal slot; `outOfFuel` is a modelling artifact (see file header). -/
inductive JsError where
  | itemsNotArray
  | fnNotFunction
  | doneNotFunction
  | nullAccess
  | outOfFuel
deriving DecidableEq, Repr

/-- The process-wide `internals` record of the source. The step function
slot stores a tag (for observability of which function object is called)
together with its policy. -/
structure Machine (V : Type) where
  items : Option (List (JVal V))
  fn : Option (Nat × StepFn V)
  done : DoneSlot
  isAborted : Bool

/-- JS array read `arr[i]`: yields `undefined` out of bounds. -/
def jsIndex {V : Type} : List (JVal V) → Nat → JVal V
  | [], _ => none
  | v :: _, 0 => v
  | _ :: rest, i+1 => jsIndex rest i

/-- JS array write `arr[i] = v`: in bounds it overwrites; at or past the
end it extends the array, filling the gap with holes that read back as
`undefined`. -/
def jsSet {V : Type} : List (JVal V) → Nat → JVal V → List (JVal V)
  | _ :: rest, 0, v => v :: rest
  | [], 0, v => [v]
  | x :: rest, i+1, v => x :: jsSet rest i v
  | [], i+1, v => none :: jsSet [] i v

/-- Source `updateVal(i, newVal)`: writes `items[i] := newVal` only when
`typeof newVal !== 'undefined'`; reading/writing through a `null` items
slot throws. -/
def updateVal {V : Type} (items : Option (List (JVal V))) (i : Nat) (newVal : JVal V) :
    Except JsError (Option (List (JVal V))) :=
  match newVal with
  | none => Except.ok items
  | some v =>
    match items with
    | none => Except.error JsError.nullAccess
    | some l => Except.ok (some (jsSet l i (some v)))

/-- Source `finish()`: calls `internals.done(internals.items)`. Calling a
`null` done slot throws; `noop` and user callbacks are both recorded as
events (a `noop` call has no user-visible effect, but recording it keeps
the model uniform — claims about the user callback match on `cb`). -/
def finishRun {V : Type} (m : Machine V) : List (Ev V) × Option JsError :=
  match m.done with
  | DoneSlot.null => ([], some JsError.nullAccess)
  | DoneSlot.noop => ([Ev.doneCall DoneSlot.noop m.items], none)
  | DoneSlot.cb t => ([Ev.doneCall (DoneSlot.cb t) m.items], none)

/-- Result of invoking an abort handle, and of a whole `iterate` call:
final machine, events emitted, and the exception (if one escaped). -/
structure IterRes (V : Type) where
  m : Machine V
  evs : List (Ev V)
  err : Option JsError

/-- Source `abort(i)` closure invoked with `newVal`: unconditionally sets
`isAborted := true`, updates the value at the bound index `i`, and calls
`finish()` — there is no guard on `isAborted` here, unlike `next`. -/
def invokeAbort {V : Type} (m : Machine V) (i : Nat) (arg : JVal V) : IterRes V :=
  let m1 : Machine V := { m with isAborted := true }
  match updateVal m1.items i arg with
  | Except.error e => ⟨m1, [], some e⟩
  | Except.ok its =>
    let m2 : Machine V := { m1 with items := its }
    let f := finishRun m2
    ⟨m2, f.1, f.2⟩

/-- What is being executed: `iter i` is the source `internals.iterate(i)`
(dispatching the step function on index `i`), and `nxt cell arg` is an
invocation of a `next` handle whose mutable index variable currently
holds `cell`, with argument `arg`. -/
inductive Call (V : Type) where
  | iter (i : Nat)
  | nxt (cell : Nat) (arg : JVal V)

/-- The cell associated with a call (used only in the fuel-exhaustion
artifact branch). -/
def callCell {V : Type} : Call V → Nat
  | Call.iter i => i
  | Call.nxt cell _ => cell

/-- Result of `run`: final machine, the final value of the invoked
handle's mutable index cell (meaningful for `Call.nxt`; for `Call.iter`
it is just the index back), the events, and the escaping exception. -/
structure RunRes (V : Type) where
  m : Machine V
  cell : Nat
  evs : List (Ev V)
  err : Option JsError

/-- Operational semantics of the controller, fuel-indexed.

`Call.iter i` is `internals.iterate(i)`: it reads `internals.items[i]`
and calls `internals.fn(i, items[i], internals.step(i))`, where
`step(i)` mints a fresh `next` handle whose mutable cell starts at `i`
and whose attached abort handle is bound to `i`; the stored policy then
decides what that step invocation does synchronously.

`Call.nxt cell arg` is an invocation of a `next` handle: if
`internals.isAborted` it is a no-op (the cell is not even incremented,
since `i++` sits inside the guard); otherwise it performs
`updateVal(i++, arg)` and then either recurses into `iterate(i)` or
calls `finish()` depending on `i < internals.items.length`. -/
def run {V : Type} : Nat → Machine V → Call V → RunRes V
  | 0, m, c => ⟨m, callCell c, [], some JsError.outOfFuel⟩
  | fuel+1, m, Call.iter i =>
    match m.items with
    | none => ⟨m, i, [], some JsError.nullAccess⟩
    | some l =>
      match m.fn with
      | none => ⟨m, i, [], some JsError.nullAccess⟩
      | some (tag, f) =>
        let v := jsIndex l i
        match f i v with
        | StepCmd.halt => ⟨m, i, [Ev.stepCall tag i v], none⟩
        | StepCmd.advance arg =>
          let r := run fuel m (Call.nxt i arg)
          ⟨r.m, i, Ev.stepCall tag i v :: r.evs, r.err⟩
        | StepCmd.abort arg =>
          let r := invokeAbort m i arg
          ⟨r.m, i, Ev.stepCall tag i v :: r.evs, r.err⟩
  | fuel+1, m, Call.nxt cell arg =>
    if m.isAborted then ⟨m, cell, [], none⟩
    else
      match updateVal m.items cell arg with
      | Except.error e => ⟨m, cell + 1, [], some e⟩
      | Except.ok its =>
        let m' : Machine V := { m with items := its }
        match its with
        | none => ⟨m', cell + 1, [], some JsError.nullAccess⟩
        | some l' =>
          if cell + 1 < l'.length then
            let r := run fuel m' (Call.iter (cell + 1))
            ⟨r.m, cell + 1, r.evs, r.err⟩
          else
            let f := finishRun m'
            ⟨m', cell + 1, f.1, f.2⟩

/-- The `items` argument of the public `iterate`: either an actual array
or some non-array value (only its non-arrayness is observable to the
validation code). -/
inductive ItemsArg (V : Type) where
  | arr (l : List (JVal V))
  | notArr

/-- The `fn` argument of the public `iterate`: a function (tagged, with
its policy) or some non-function value. -/
inductive FnArg (V : Type) where
  | fn (tag : Nat) (f : StepFn V)
  | notFn

/-- The `done` argument of the public `iterate`: omitted (`undefined`), a
callback, or some non-function value. -/
inductive DoneArg where
  | undef
  | cb (tag : Nat)
  | notFn

/-- Source `reset()`: the state every `iterate` call starts from, with
all slots cleared and the aborted flag lowered. -/
def resetMachine {V : Type} : Machine V :=
  { items := none, fn := none, done := DoneSlot.null, isAborted := false }

/-- Tail of the public `iterate` after successful validation: the state
is fully populated; the walk starts at index 0 iff the array is
non-empty (`if (items.length)`). -/
def iterateGo {V : Type} (l : List (JVal V)) (tag : Nat) (f : StepFn V) (d : DoneSlot)
    (fuel : Nat) : IterRes V :=
  let m : Machine V := { items := some l, fn := some (tag, f), done := d, isAborted := false }
  if l.length ≠ 0 then
    let r := run fuel m (Call.iter 0)
    ⟨r.m, r.evs, r.err⟩
  else ⟨m, [], none⟩

/-- Public `iterate(items, fn, done)`. It first runs `reset()` — so the
previous machine state `prev` is discarded wholesale, even when a later
validation throws — then validates and assigns each argument in order,
then starts the walk. The machine returned is the state of the shared
`internals` record when the call returns or throws. -/
def iterate {V : Type} (_prev : Machine V) (itemsArg : ItemsArg V) (fnArg : FnArg V)
    (doneArg : DoneArg) (fuel : Nat) : IterRes V :=
  match itemsArg with
  | ItemsArg.notArr => ⟨resetMachine, [], some JsError.itemsNotArray⟩
  | ItemsArg.arr l =>
    match fnArg with
    | FnArg.notFn =>
      ⟨{ items := some l, fn := none, done := DoneSlot.null, isAborted := false }, [],
        some JsError.fnNotFunction⟩
    | FnArg.fn tag f =>
      match doneArg with
      | DoneArg.notFn =>
        ⟨{ items := some l, fn := some (tag, f), done := DoneSlot.null, isAborted := false }, [],
          some JsError.doneNotFunction⟩
      | DoneArg.undef => iterateGo l tag f DoneSlot.noop fuel
      | DoneArg.cb t => iterateGo l tag f (DoneSlot.cb t) fuel

/-- Step policy that always returns without calling its handles (the
step function retains them for later external invocation). -/
def haltFn {V : Type} : StepFn V := fun _ _ => StepCmd.halt

/-- Step policy that at every index synchronously calls `next` with the
replacement chosen by `r` (passing `none` means calling `next()` with no
argument). -/
def replAll {V : Type} (r : Nat → JVal V → JVal V) : StepFn V :=
  fun i v => StepCmd.advance (r i v)

/-- Step policy that synchronously calls `next()` with no argument below
index `i0` and calls `next.abort(a)` at index `i0`. -/
def abortAt {V : Type} (i0 : Nat) (a : JVal V) : StepFn V :=
  fun i _ => if i = i0 then StepCmd.abort a else StepCmd.advance none

/-- Expected final array of a full advancing walk started at index `i`:
each position keeps its original value unless the policy `r` supplied a
replacement for it. -/
def applyRepl {V : Type} (r : Nat → JVal V → JVal V) : Nat → List (JVal V) → List (JVal V)
  | _, [] => []
  | i, v :: rest =>
    (match r i v with
     | some w => some w
     | none => v) :: applyRepl r (i+1) rest

/-- Expected step-call events of a walk over the given values starting
at index `i` (each step sees the value current at dispatch time). -/
def stepEvs {V : Type} (tag : Nat) : Nat → List (JVal V) → List (Ev V)
  | _, [] => []
  | i, v :: rest => Ev.stepCall tag i v :: stepEvs tag (i+1) rest

/-- Number of done-callback invocations recorded in an event list. -/
def doneEvCount {V : Type} (evs : List (Ev V)) : Nat :=
  (evs.filter fun ev =>
    match ev with
    | Ev.doneCall _ _ => true
    | _ => false).length

/-- Action of `updateVal` on a non-null items array: unchanged for an
`undefined` argument, `items[i] = v` for a defined one. -/
def jsUpd {V : Type} (l : List (JVal V)) (i : Nat) (a : JVal V) : List (JVal V) :=
  match a with
  | none => l
  | some v => jsSet l i (some v)

/-- Least index a call can write to: `iterate(i)` and its continuations
only ever write at indices `≥ i`; an invocation of a `next` handle with
an `undefined` argument writes nothing at its own cell either. -/
def lowIdx {V : Type} : Call V → Nat
  | Call.iter i => i
  | Call.nxt cell none => cell + 1
  | Call.nxt cell (some _) => cell

/-!
Handle-world model, used to reason about arbitrary sequences of handle
invocations against one run. The step policy is `haltFn` (every step
retains its handles and returns), so every handle invocation of the run
appears as one explicit transition; `adv` holds the current value of the
mutable index cell of every minted `next` handle, `ab` the bound index
of every minted abort handle, and `doneFired` records whether the done
callback has been called yet (i.e. whether the run is still active).
-/

/-- State of one run together with all handles it has minted. -/
structure World (V : Type) where
  m : Machine V
  adv : List Nat
  ab : List Nat
  doneFired : Bool

/-- Indices at which step calls in `evs` minted fresh handle pairs. -/
def mintedIdxs {V : Type} (evs : List (Ev V)) : List Nat :=
  evs.filterMap fun ev =>
    match ev with
    | Ev.stepCall _ j _ => some j
    | _ => none

/-- Whether the event list contains a done-callback invocation. -/
def hasDoneEv {V : Type} (evs : List (Ev V)) : Bool :=
  evs.any fun ev =>
    match ev with
    | Ev.doneCall _ _ => true
    | _ => false

/-- Invoke the `k`-th minted `next` handle with argument `arg`: its cell
is updated to the returned (post-incremented) value, and any step call
this triggers mints a fresh handle pair. Fuel 2 always suffices because
the stored policy is `haltFn`. -/
def applyAdvW {V : Type} (w : World V) (k : Nat) (arg : JVal V) : World V :=
  let r := run 2 w.m (Call.nxt (w.adv.getD k 0) arg)
  { m := r.m
    adv := w.adv.set k r.cell ++ mintedIdxs r.evs
    ab := w.ab ++ mintedIdxs r.evs
    doneFired := w.doneFired || hasDoneEv r.evs }

/-- Invoke the `k`-th minted abort handle with argument `arg`. -/
def applyAbortW {V : Type} (w : World V) (k : Nat) (arg : JVal V) : World V :=
  let r := invokeAbort w.m (w.ab.getD k 0)  arg
  { m := r.m
    adv := w.adv
    ab := w.ab
    doneFired := w.doneFired || hasDoneEv r.evs }

/-- One handle invocation: any minted advance handle or any minted abort
handle, with any argument. -/
inductive WStep {V : Type} : World V → World V → Prop
  | advance (w : World V) (k : Nat) (arg : JVal V) (hk : k < w.adv.length) :
      WStep w (applyAdvW w k arg)
  | abort (w : World V) (k : Nat) (arg : JVal V) (hk : k < w.ab.length) :
      WStep w (applyAbortW w k arg)

/-- Worlds reachable by a sequence of handle invocations. -/
def Reach {V : Type} (w w' : World V) : Prop :=
  Relation.ReflTransGen WStep w w'

/-- Initial world of a run: the machine `iterate` leaves behind with the
`haltFn` policy, plus the handles minted by its events. -/
def initW {V : Type} (l : List (JVal V)) (tag dt : Nat) (fuel : Nat) : World V :=
  let r := iterate resetMachine (ItemsArg.arr l) (FnArg.fn tag haltFn) (DoneArg.cb dt) fuel
  { m := r.m
    adv := mintedIdxs r.evs
    ab := mintedIdxs r.evs
    doneFired := hasDoneEv r.evs }

/-- Run invariant: the machine slots stay well-formed, and while the
done callback has not fired, the array still has its original length,
the run is not aborted, and every minted handle is bound within
bounds. -/
def WInv {V : Type} (l0 : List (JVal V)) (tag dt : Nat) (w : World V) : Prop :=
  ∃ l', w.m.items = some l' ∧ w.m.fn = some (tag, haltFn) ∧ w.m.done = DoneSlot.cb dt ∧
    (w.doneFired = false →
      l'.length = l0.length ∧ w.m.isAborted = false ∧
      (∀ c ∈ w.adv, c < l'.length) ∧ (∀ i ∈ w.ab, i < l'.length))

/-!
Helper lemmas.
-/

theorem jsIndex_append_cons {V : Type} (pre rest : List (JVal V)) (v : JVal V) :
    jsIndex (pre ++ v :: rest) pre.length = v := by
  induction pre with
  | nil => rfl
  | cons x xs ih => simpa [jsIndex] using ih

theorem jsSet_append_cons {V : Type} (pre rest : List (JVal V)) (v w : JVal V) :
    jsSet (pre ++ v :: rest) pre.length w = pre ++ w :: rest := by
  induction pre with
  | nil => rfl
  | cons x xs ih => simp [jsSet, ih]

theorem jsSet_length_of_lt {V : Type} (l : List (JVal V)) (i : Nat) (v : JVal V)
    (h : i < l.length) : (jsSet l i v).length = l.length := by
  induction l generalizing i with
  | nil => simp at h
  | cons x xs ih =>
    cases i with
    | zero => simp [jsSet]
    | succ i => simpa [jsSet] using ih i (by simpa using h)

theorem jsIndex_jsSet_lt {V : Type} (i : Nat) :
    ∀ (l : List (JVal V)) (j : Nat) (v : JVal V), j < i →
      jsIndex (jsSet l i v) j = jsIndex l j := by
  induction i with
  | zero => intro l j v h; omega
  | succ i ih =>
    intro l j v h
    cases l with
    | nil =>
      cases j with
      | zero => rfl
      | succ j => simpa [jsSet, jsIndex] using ih [] j v (by omega)
    | cons x xs =>
      cases j with
      | zero => rfl
      | succ j => simpa [jsSet, jsIndex] using ih xs j v (by omega)

theorem jsUpd_length_of_lt {V : Type} (l : List (JVal V)) (i : Nat) (a : JVal V)
    (h : i < l.length) : (jsUpd l i a).length = l.length := by
  cases a with
  | none => rfl
  | some v => simpa [jsUpd] using jsSet_length_of_lt l i (some v) h

theorem mem_stepEvs {V : Type} {tag t j : Nat} {v : JVal V} :
    ∀ {l : List (JVal V)} {i : Nat}, Ev.stepCall t j v ∈ stepEvs tag i l → j < i + l.length := by
  intro l
  induction l with
  | nil => intro i h; simp [stepEvs] at h
  | cons x xs ih =>
    intro i h
    simp only [stepEvs, List.mem_cons] at h
    rcases h with h | h
    · cases h; simp
    · have := ih h
      simp only [List.length_cons]
      omega

theorem doneEvCount_stepEvs {V : Type} (tag : Nat) :
    ∀ (i : Nat) (l : List (JVal V)), doneEvCount (stepEvs tag i l) = 0 := by
  intro i l
  induction l generalizing i with
  | nil => rfl
  | cons x xs ih => simpa [stepEvs, doneEvCount, List.filter] using ih (i+1)

theorem doneEvCount_append {V : Type} (xs ys : List (Ev V)) :
    doneEvCount (xs ++ ys) = doneEvCount xs + doneEvCount ys := by
  simp [doneEvCount, List.filter_append]

theorem run_nxt_aborted {V : Type} (fuel : Nat) (m : Machine V) (cell : Nat) (arg : JVal V)
    (h : m.isAborted = true) : run (fuel+1) m (Call.nxt cell arg) = ⟨m, cell, [], none⟩ := by
  simp [run, h]

theorem invokeAbort_eq {V : Type} (m : Machine V) (l : List (JVal V)) (t i : Nat) (a : JVal V)
    (hm : m.items = some l) (hd : m.done = DoneSlot.cb t) :
    invokeAbort m i a =
      ⟨⟨some (jsUpd l i a), m.fn, DoneSlot.cb t, true⟩,
       [Ev.doneCall (DoneSlot.cb t) (some (jsUpd l i a))], none⟩ := by
  obtain ⟨mi, mf, md, mb⟩ := m
  simp only at hm hd
  subst hm; subst hd
  cases a with
  | none => rfl
  | some v => rfl

theorem run_nxt_haltFn_continue {V : Type} (fuel : Nat) (m : Machine V) (l : List (JVal V))
    (tag cell : Nat) (arg : JVal V)
    (hm : m.items = some l) (hf : m.fn = some (tag, haltFn)) (hab : m.isAborted = false)
    (hlt : cell + 1 < (jsUpd l cell arg).length) :
    run (fuel+2) m (Call.nxt cell arg) =
      ⟨⟨some (jsUpd l cell arg), m.fn, m.done, false⟩, cell + 1,
       [Ev.stepCall tag (cell+1) (jsIndex (jsUpd l cell arg) (cell+1))], none⟩ := by
  obtain ⟨mi, mf, md, mb⟩ := m
  simp only at hm hf hab
  subst hm; subst hf; subst hab
  cases a : arg with
  | none =>
    subst a
    simp only [jsUpd] at hlt ⊢
    simp [run, updateVal, hlt, haltFn]
  | some v =>
    subst a
    simp only [jsUpd] at hlt ⊢
    simp [run, updateVal, hlt, haltFn]

theorem run_nxt_haltFn_finish {V : Type} (fuel : Nat) (m : Machine V) (l : List (JVal V))
    (tag t cell : Nat) (arg : JVal V)
    (hm : m.items = some l) (hf : m.fn = some (tag, haltFn)) (hab : m.isAborted = false)
    (hd : m.done = DoneSlot.cb t)
    (hge : ¬ cell + 1 < (jsUpd l cell arg).length) :
    run (fuel+2) m (Call.nxt cell arg) =
      ⟨⟨some (jsUpd l cell arg), m.fn, DoneSlot.cb t, false⟩, cell + 1,
       [Ev.doneCall (DoneSlot.cb t) (some (jsUpd l cell arg))], none⟩ := by
  obtain ⟨mi, mf, md, mb⟩ := m
  simp only at hm hf hab hd
  subst hm; subst hf; subst hab; subst hd
  cases a : arg with
  | none =>
    subst a
    simp only [jsUpd] at hge ⊢
    simp [run, updateVal, hge, finishRun]
  | some v =>
    subst a
    simp only [jsUpd] at hge ⊢
    simp [run, updateVal, hge, finishRun]

theorem run_replAll {V : Type} (r : Nat → JVal V → JVal V) (tag : Nat) (d : DoneSlot)
    (hd : d ≠ DoneSlot.null) :
    ∀ (l pre : List (JVal V)) (fuel : Nat), l ≠ [] → 2 * l.length ≤ fuel →
      run fuel ⟨some (pre ++ l), some (tag, replAll r), d, false⟩ (Call.iter pre.length)
        = ⟨⟨some (pre ++ applyRepl r pre.length l), some (tag, replAll r), d, false⟩,
           pre.length,
           stepEvs tag pre.length l
             ++ [Ev.doneCall d (some (pre ++ applyRepl r pre.length l))],
           none⟩ := by
  intro l
  induction l with
  | nil => intro pre fuel hne _; exact absurd rfl hne
  | cons v rest ih =>
    intro pre fuel _ hfuel
    obtain ⟨f, rfl⟩ : ∃ f, fuel = f + 2 := ⟨fuel - 2, by simp at hfuel; omega⟩
    have hlen : 2 * rest.length ≤ f := by simp at hfuel; omega
    set nv : JVal V := (match r pre.length v with
      | some w => some w
      | none => v) with hnv
    have hupd :
        updateVal (V := V) (some (pre ++ v :: rest)) pre.length (r pre.length v)
          = Except.ok (some (pre ++ nv :: rest)) := by
      rw [hnv]
      cases r pre.length v with
      | none => rfl
      | some w => simp [updateVal, jsSet_append_cons]
    have happly : applyRepl r pre.length (v :: rest)
        = nv :: applyRepl r (pre.length + 1) rest := by
      rw [hnv]; rfl
    cases rest with
    | nil =>
      have hfin : ¬ pre.length + 1 < (pre ++ nv :: []).length := by simp
      cases d with
      | null => exact absurd rfl hd
      | noop =>
        simp [run, jsIndex_append_cons, replAll, hupd, hfin, finishRun, happly, stepEvs,
          applyRepl]
      | cb t =>
        simp [run, jsIndex_append_cons, replAll, hupd, hfin, finishRun, happly, stepEvs,
          applyRepl]
    | cons w ws =>
      have hcont : pre.length + 1 < (pre ++ nv :: w :: ws).length := by simp
      have hrec := ih (pre ++ [nv]) f (by simp) hlen
      simp only [List.append_assoc, List.singleton_append, List.length_append,
        List.length_cons, List.length_nil, Nat.zero_add] at hrec
      simp only [run, jsIndex_append_cons, replAll, hupd, hcont, if_pos, happly, stepEvs]
      rw [hrec]
      simp [stepEvs]

theorem run_abortAt {V : Type} (i0 : Nat) (a : JVal V) (tag t : Nat) :
    ∀ (l pre : List (JVal V)) (fuel : Nat),
      pre.length ≤ i0 → i0 < pre.length + l.length → 2 * l.length ≤ fuel →
      run fuel ⟨some (pre ++ l), some (tag, abortAt i0 a), DoneSlot.cb t, false⟩
          (Call.iter pre.length)
        = ⟨⟨some (jsUpd (pre ++ l) i0 a), some (tag, abortAt i0 a), DoneSlot.cb t, true⟩,
           pre.length,
           stepEvs tag pre.length (l.take (i0 + 1 - pre.length))
             ++ [Ev.doneCall (DoneSlot.cb t) (some (jsUpd (pre ++ l) i0 a))],
           none⟩ := by
  intro l
  induction l with
  | nil => intro pre fuel hle hlt _; simp at hlt; omega
  | cons v rest ih =>
    intro pre fuel hle hlt hfuel
    obtain ⟨f, rfl⟩ : ∃ f, fuel = f + 2 := ⟨fuel - 2, by simp at hfuel; omega⟩
    have hlen2 : 2 * rest.length ≤ f := by simp at hfuel; omega
    by_cases hi : pre.length = i0
    · subst hi
      have habort :
          invokeAbort (V := V)
              ⟨some (pre ++ v :: rest), some (tag, abortAt pre.length a), DoneSlot.cb t, false⟩
              pre.length a
            = ⟨⟨some (jsUpd (pre ++ v :: rest) pre.length a), some (tag, abortAt pre.length a),
                 DoneSlot.cb t, true⟩,
               [Ev.doneCall (DoneSlot.cb t) (some (jsUpd (pre ++ v :: rest) pre.length a))],
               none⟩ :=
        invokeAbort_eq _ _ _ _ _ rfl rfl
      have htake : (v :: rest).take (pre.length + 1 - pre.length) = [v] := by
        rw [show pre.length + 1 - pre.length = 1 from by omega]
        rfl
      simp [run, jsIndex_append_cons, abortAt, habort, htake, stepEvs]
    · simp only [List.length_cons] at hlt
      have hlt1 : pre.length + 1 ≤ i0 := by omega
      have hcont : pre.length + 1 < (pre ++ v :: rest).length := by
        simp only [List.length_append, List.length_cons]
        omega
      have hrec := ih (pre ++ [v]) f (by simpa using hlt1) (by simp; omega) hlen2
      simp only [List.append_assoc, List.singleton_append, List.length_append,
        List.length_cons, List.length_nil, Nat.zero_add] at hrec
      have htake : (v :: rest).take (i0 + 1 - pre.length)
          = v :: rest.take (i0 + 1 - (pre.length + 1)) := by
        rw [show i0 + 1 - pre.length = (i0 + 1 - (pre.length + 1)) + 1 from by omega]
        rfl
      have hupd : updateVal (V := V) (some (pre ++ v :: rest)) pre.length none
          = Except.ok (some (pre ++ v :: rest)) := rfl
      simp only [run, jsIndex_append_cons, abortAt, if_neg hi, hupd, hcont, if_pos,
        htake, stepEvs]
      rw [hrec]
      simp [stepEvs]

theorem run_preserves_low {V : Type} :
    ∀ (fuel : Nat) (m : Machine V) (c : Call V) (l : List (JVal V)), m.items = some l →
      ∃ l', (run fuel m c).m.items = some l' ∧
        ∀ j, j < lowIdx c → jsIndex l' j = jsIndex l j := by
  intro fuel
  induction fuel with
  | zero =>
    intro m c l hm
    exact ⟨l, by simpa [run] using hm, fun j _ => rfl⟩
  | succ fuel ih =>
    intro m c l hm
    cases c with
    | iter i =>
      rcases hfn : m.fn with _ | tf
      · exact ⟨l, by simp [run, hm, hfn], fun j _ => rfl⟩
      · obtain ⟨tag, f⟩ := tf
        cases hcmd : f i (jsIndex l i) with
        | advance arg =>
          obtain ⟨l', h1, h2⟩ := ih m (Call.nxt i arg) l hm
          refine ⟨l', ?_, ?_⟩
          · simpa [run, hm, hfn, hcmd] using h1
          · intro j hj
            refine h2 j ?_
            simp only [lowIdx] at hj
            cases arg <;> simp [lowIdx] <;> omega
        | abort arg =>
          refine ⟨jsUpd l i arg, ?_, ?_⟩
          · cases arg with
            | none => simp [run, hm, hfn, hcmd, invokeAbort, updateVal, jsUpd]
            | some w => simp [run, hm, hfn, hcmd, invokeAbort, updateVal, jsUpd]
          · intro j hj
            cases arg with
            | none => rfl
            | some w =>
              exact jsIndex_jsSet_lt i l j (some w) (by simpa [lowIdx] using hj)
        | halt =>
          exact ⟨l, by simp [run, hm, hfn, hcmd], fun j _ => rfl⟩
    | nxt cell arg =>
      rcases hab : m.isAborted
      · cases arg with
        | none =>
          by_cases hcont : cell + 1 < l.length
          · obtain ⟨l', h1, h2⟩ :=
              ih ({ m with items := some l } : Machine V) (Call.iter (cell + 1)) l rfl
            refine ⟨l', ?_, fun j hj => h2 j (by simpa [lowIdx] using hj)⟩
            simpa [run, hm, hab, updateVal, hcont] using h1
          · refine ⟨l, ?_, fun j _ => rfl⟩
            simp [run, hm, hab, updateVal, hcont, finishRun]
        | some w =>
          by_cases hcont : cell + 1 < (jsSet l cell (some w)).length
          · obtain ⟨l', h1, h2⟩ :=
              ih ({ m with items := some (jsSet l cell (some w)) } : Machine V)
                (Call.iter (cell + 1)) (jsSet l cell (some w)) rfl
            refine ⟨l', ?_, ?_⟩
            · simpa [run, hm, hab, updateVal, hcont] using h1
            · intro j hj
              have hj' : j < cell := by simpa [lowIdx] using hj
              rw [h2 j (by simp [lowIdx]; omega)]
              exact jsIndex_jsSet_lt cell l j (some w) hj'
          · refine ⟨jsSet l cell (some w), ?_, ?_⟩
            · simp [run, hm, hab, updateVal, hcont, finishRun]
            · intro j hj
              exact jsIndex_jsSet_lt cell l j (some w) (by simpa [lowIdx] using hj)
      · exact ⟨l, by simp [run, hm, hab], fun j _ => rfl⟩

theorem initW_eq {V : Type} (l : List (JVal V)) (tag dt fuel : Nat) (hl : l ≠ []) :
    initW l tag dt (fuel+1) =
      ⟨⟨some l, some (tag, haltFn), DoneSlot.cb dt, false⟩, [0], [0], false⟩ := by
  have h0 : l.length ≠ 0 := fun h => hl (List.length_eq_zero.mp h)
  simp [initW, iterate, iterateGo, h0, run, haltFn, mintedIdxs, hasDoneEv]

theorem winv_init {V : Type} (l : List (JVal V)) (tag dt fuel : Nat) (hl : l ≠ []) :
    WInv l tag dt (initW l tag dt (fuel+1)) := by
  rw [initW_eq l tag dt fuel hl]
  have hpos : 0 < l.length := List.length_pos.mpr hl
  refine ⟨l, rfl, rfl, rfl, fun _ => ⟨rfl, rfl, ?_, ?_⟩⟩
  · intro c hc
    simp only [List.mem_singleton] at hc
    subst hc; exact hpos
  · intro i hi
    simp only [List.mem_singleton] at hi
    subst hi; exact hpos

theorem applyAdvW_aborted {V : Type} (w : World V) (k : Nat) (arg : JVal V)
    (hab : w.m.isAborted = true) :
    applyAdvW w k arg = ⟨w.m, w.adv.set k (w.adv.getD k 0), w.ab, w.doneFired⟩ := by
  have hrun : run 2 w.m (Call.nxt (w.adv.getD k 0) arg) = ⟨w.m, w.adv.getD k 0, [], none⟩ :=
    run_nxt_aborted 1 w.m (w.adv.getD k 0) arg hab
  simp only [applyAdvW]
  rw [hrun]
  simp [mintedIdxs, hasDoneEv]

theorem applyAdvW_continue {V : Type} (w : World V) (k : Nat) (arg : JVal V)
    (l' : List (JVal V)) (tag : Nat)
    (hitems : w.m.items = some l') (hfn : w.m.fn = some (tag, haltFn))
    (hab : w.m.isAborted = false)
    (hb : w.adv.getD k 0 + 1 < (jsUpd l' (w.adv.getD k 0) arg).length) :
    applyAdvW w k arg =
      ⟨⟨some (jsUpd l' (w.adv.getD k 0) arg), w.m.fn, w.m.done, false⟩,
       w.adv.set k (w.adv.getD k 0 + 1) ++ [w.adv.getD k 0 + 1],
       w.ab ++ [w.adv.getD k 0 + 1],
       w.doneFired⟩ := by
  have hrun : run 2 w.m (Call.nxt (w.adv.getD k 0) arg) =
      ⟨⟨some (jsUpd l' (w.adv.getD k 0) arg), w.m.fn, w.m.done, false⟩,
       w.adv.getD k 0 + 1,
       [Ev.stepCall tag (w.adv.getD k 0 + 1)
         (jsIndex (jsUpd l' (w.adv.getD k 0) arg) (w.adv.getD k 0 + 1))], none⟩ :=
    run_nxt_haltFn_continue 0 w.m l' tag (w.adv.getD k 0) arg hitems hfn hab hb
  simp only [applyAdvW]
  rw [hrun]
  simp [mintedIdxs, hasDoneEv]

theorem applyAdvW_finish {V : Type} (w : World V) (k : Nat) (arg : JVal V)
    (l' : List (JVal V)) (tag t : Nat)
    (hitems : w.m.items = some l') (hfn : w.m.fn = some (tag, haltFn))
    (hab : w.m.isAborted = false) (hd : w.m.done = DoneSlot.cb t)
    (hb : ¬ w.adv.getD k 0 + 1 < (jsUpd l' (w.adv.getD k 0) arg).length) :
    applyAdvW w k arg =
      ⟨⟨some (jsUpd l' (w.adv.getD k 0) arg), w.m.fn, DoneSlot.cb t, false⟩,
       w.adv.set k (w.adv.getD k 0 + 1), w.ab, true⟩ := by
  have hrun : run 2 w.m (Call.nxt (w.adv.getD k 0) arg) =
      ⟨⟨some (jsUpd l' (w.adv.getD k 0) arg), w.m.fn, DoneSlot.cb t, false⟩,
       w.adv.getD k 0 + 1,
       [Ev.doneCall (DoneSlot.cb t) (some (jsUpd l' (w.adv.getD k 0) arg))], none⟩ :=
    run_nxt_haltFn_finish 0 w.m l' tag t (w.adv.getD k 0) arg hitems hfn hab hd hb
  simp only [applyAdvW]
  rw [hrun]
  simp [mintedIdxs, hasDoneEv]

theorem applyAbortW_eq {V : Type} (w : World V) (k : Nat) (arg : JVal V)
    (l' : List (JVal V)) (t : Nat)
    (hitems : w.m.items = some l') (hd : w.m.done = DoneSlot.cb t) :
    applyAbortW w k arg =
      ⟨⟨some (jsUpd l' (w.ab.getD k 0) arg), w.m.fn, DoneSlot.cb t, true⟩,
       w.adv, w.ab, true⟩ := by
  have h := invokeAbort_eq w.m l' t (w.ab.getD k 0) arg hitems hd
  simp only [applyAbortW]
  rw [h]
  simp [hasDoneEv]

theorem winv_step {V : Type} (l0 : List (JVal V)) (tag dt : Nat) (w w' : World V)
    (hw : WInv l0 tag dt w) (hs : WStep w w') :
    WInv l0 tag dt w' ∧
      (w.doneFired = false → ∃ l2, w'.m.items = some l2 ∧ l2.length = l0.length) := by
  obtain ⟨l', hitems, hfn, hdone, hcond⟩ := hw
  cases hs with
  | advance k arg hk =>
    rcases hab : w.m.isAborted with _ | _
    · by_cases hb : w.adv.getD k 0 + 1 < (jsUpd l' (w.adv.getD k 0) arg).length
      · rw [applyAdvW_continue w k arg l' tag hitems hfn hab hb]
        have hcell : w.adv.getD k 0 ∈ w.adv := by
          rw [List.getD_eq_getElem w.adv 0 hk]
          exact List.getElem_mem hk
        constructor
        · refine ⟨jsUpd l' (w.adv.getD k 0) arg, rfl, hfn, hdone, fun hdf => ?_⟩
          obtain ⟨hlen, _, hadv, habx⟩ := hcond hdf
          have hcl : w.adv.getD k 0 < l'.length := hadv _ hcell
          have hulen : (jsUpd l' (w.adv.getD k 0) arg).length = l'.length :=
            jsUpd_length_of_lt l' (w.adv.getD k 0) arg hcl
          refine ⟨by rw [hulen, hlen], rfl, ?_, ?_⟩
          · intro c hc
            rcases List.mem_append.mp hc with hc | hc
            · rcases List.mem_or_eq_of_mem_set hc with hc | hc
              · have := hadv _ hc; omega
              · subst hc; exact hb
            · simp only [List.mem_singleton] at hc
              subst hc; exact hb
          · intro i hi
            rcases List.mem_append.mp hi with hi | hi
            · have := habx _ hi; omega
            · simp only [List.mem_singleton] at hi
              subst hi; exact hb
        · intro hdf
          obtain ⟨hlen, _, hadv, _⟩ := hcond hdf
          have hcl : w.adv.getD k 0 < l'.length := hadv _ hcell
          exact ⟨jsUpd l' (w.adv.getD k 0) arg, rfl, by
            rw [jsUpd_length_of_lt l' (w.adv.getD k 0) arg hcl, hlen]⟩
      · rw [applyAdvW_finish w k arg l' tag dt hitems hfn hab hdone hb]
        have hcell : w.adv.getD k 0 ∈ w.adv := by
          rw [List.getD_eq_getElem w.adv 0 hk]
          exact List.getElem_mem hk
        constructor
        · exact ⟨jsUpd l' (w.adv.getD k 0) arg, rfl, hfn, rfl,
            fun hdf => Bool.noConfusion hdf⟩
        · intro hdf
          obtain ⟨hlen, _, hadv, _⟩ := hcond hdf
          have hcl : w.adv.getD k 0 < l'.length := hadv _ hcell
          exact ⟨jsUpd l' (w.adv.getD k 0) arg, rfl, by
            rw [jsUpd_length_of_lt l' (w.adv.getD k 0) arg hcl, hlen]⟩
    · rw [applyAdvW_aborted w k arg hab]
      constructor
      · refine ⟨l', hitems, hfn, hdone, fun hdf => ?_⟩
        have := (hcond hdf).2.1
        rw [hab] at this
        exact Bool.noConfusion this
      · intro hdf
        have := (hcond hdf).2.1
        rw [hab] at this
        exact Bool.noConfusion this
  | abort k arg hk =>
    rw [applyAbortW_eq w k arg l' dt hitems hdone]
    have hcell : w.ab.getD k 0 ∈ w.ab := by
      rw [List.getD_eq_getElem w.ab 0 hk]
      exact List.getElem_mem hk
    constructor
    · exact ⟨jsUpd l' (w.ab.getD k 0) arg, rfl, hfn, rfl,
        fun hdf => Bool.noConfusion hdf⟩
    · intro hdf
      obtain ⟨hlen, _, _, habx⟩ := hcond hdf
      have hcl : w.ab.getD k 0 < l'.length := habx _ hcell
      exact ⟨jsUpd l' (w.ab.getD k 0) arg, rfl, by
        rw [jsUpd_length_of_lt l' (w.ab.getD k 0) arg hcl, hlen]⟩

theorem winv_reach {V : Type} (l0 : List (JVal V)) (tag dt fuel : Nat) (hl : l0 ≠ [])
    (w : World V) (h : Reach (initW l0 tag dt (fuel+1)) w) : WInv l0 tag dt w := by
  have h' : Relation.ReflTransGen WStep (initW l0 tag dt (fuel+1)) w := h
  clear h
  induction h' with
  | refl => exact winv_init l0 tag dt fuel hl
  | tail _ hstep ih => exact (winv_step l0 tag dt _ _ ih hstep).1

/-!
Claim theorems.
-/

/-- C8: for the empty sequence, `iterate` invokes neither the step
function nor the done callback: the call returns immediately with no
events, no error, and no walk — only the freshly populated run-state. -/
theorem c8_empty_input_inert {V : Type} (prev : Machine V) (tag dt fuel : Nat) (f : StepFn V) :
    iterate prev (ItemsArg.arr ([] : List (JVal V))) (FnArg.fn tag f) (DoneArg.cb dt) fuel
      = ⟨⟨some [], some (tag, f), DoneSlot.cb dt, false⟩, [], none⟩ := by
  simp [iterate, iterateGo]

/-- C6 (amended): each invalid `iterate` call raises its `TypeError`
synchronously, before any step or done call. But the claim's "no side
effects at all" fails on the code: `reset()` runs before validation, so
the shared run-state is cleared (and the arguments validated before the
failing one are already assigned) whatever the previous state was; the
state observable by previously issued handles is changed. -/
theorem c6_validation_throws_after_reset {V : Type} (prev : Machine V) (fuel : Nat) :
    (∀ (fnArg : FnArg V) (doneArg : DoneArg),
        iterate prev ItemsArg.notArr fnArg doneArg fuel
          = ⟨resetMachine, [], some JsError.itemsNotArray⟩)
    ∧ (∀ (l : List (JVal V)) (doneArg : DoneArg),
        iterate prev (ItemsArg.arr l) FnArg.notFn doneArg fuel
          = ⟨⟨some l, none, DoneSlot.null, false⟩, [], some JsError.fnNotFunction⟩)
    ∧ (∀ (l : List (JVal V)) (tag : Nat) (f : StepFn V),
        iterate prev (ItemsArg.arr l) (FnArg.fn tag f) DoneArg.notFn fuel
          = ⟨⟨some l, some (tag, f), DoneSlot.null, false⟩, [], some JsError.doneNotFunction⟩) :=
  ⟨fun _ _ => rfl, fun _ _ => rfl, fun _ _ _ => rfl⟩

/-- C6 counterexample: starting from a previously aborted run-state, an
`iterate` call with a non-array `items` throws synchronously — but the
aborted flag has been cleared and the stored items are gone, so the call
did change the run-state observable by previously issued handles,
refuting the claim that an invalid call produces no side effects. -/
theorem c6_counterexample :
    (iterate (⟨some [some 5], some (7, haltFn), DoneSlot.cb 3, true⟩ : Machine Nat)
        ItemsArg.notArr (FnArg.fn 1 haltFn) (DoneArg.cb 2) 5).err
      = some JsError.itemsNotArray
    ∧ (⟨some [some 5], some (7, haltFn), DoneSlot.cb 3, true⟩ : Machine Nat).isAborted = true
    ∧ (iterate (⟨some [some 5], some (7, haltFn), DoneSlot.cb 3, true⟩ : Machine Nat)
        ItemsArg.notArr (FnArg.fn 1 haltFn) (DoneArg.cb 2) 5).m.isAborted = false
    ∧ (iterate (⟨some [some 5], some (7, haltFn), DoneSlot.cb 3, true⟩ : Machine Nat)
        ItemsArg.notArr (FnArg.fn 1 haltFn) (DoneArg.cb 2) 5).m.items
      ≠ (⟨some [some 5], some (7, haltFn), DoneSlot.cb 3, true⟩ : Machine Nat).items :=
  ⟨rfl, rfl, rfl, by decide⟩

/-- C5: an abort handle bound to index `i` acts unconditionally: for any
machine state with a non-null items array and a stored done callback —
in particular states in which the run has already aborted or already
finished — invoking it overwrites `items[i]` when a value is supplied
(and leaves the array unchanged for an undefined one), sets the aborted
flag, and invokes the done callback (again); there is no check of the
`aborted` flag, unlike `advance`. -/
theorem c5_abort_unconditional {V : Type} (m : Machine V) (l : List (JVal V)) (t i : Nat)
    (a : JVal V) (hm : m.items = some l) (hd : m.done = DoneSlot.cb t) :
    invokeAbort m i a
      = ⟨⟨some (jsUpd l i a), m.fn, DoneSlot.cb t, true⟩,
         [Ev.doneCall (DoneSlot.cb t) (some (jsUpd l i a))], none⟩ :=
  invokeAbort_eq m l t i a hm hd

/-- C5 witness: a machine whose run has already aborted
(`isAborted = true`): the abort handle bound to index 0 still overwrites
`items[0]` with 7 and fires the done callback again. -/
theorem c5_abort_unconditional_witness :
    ((⟨some [some 1, some 2], some (1, haltFn), DoneSlot.cb 2, true⟩ : Machine Nat).items
        = some [some 1, some 2]
      ∧ (⟨some [some 1, some 2], some (1, haltFn), DoneSlot.cb 2, true⟩ : Machine Nat).done
        = DoneSlot.cb 2)
    ∧ invokeAbort (⟨some [some 1, some 2], some (1, haltFn), DoneSlot.cb 2, true⟩ : Machine Nat)
        0 (some 7)
      = ⟨⟨some (jsUpd [some 1, some 2] 0 (some 7)), some (1, haltFn), DoneSlot.cb 2, true⟩,
         [Ev.doneCall (DoneSlot.cb 2) (some (jsUpd [some 1, some 2] 0 (some 7)))], none⟩ :=
  ⟨⟨rfl, rfl⟩,
    c5_abort_unconditional
      (⟨some [some 1, some 2], some (1, haltFn), DoneSlot.cb 2, true⟩ : Machine Nat)
      [some 1, some 2] 2 0 (some 7) rfl rfl⟩

/-- C9: the mutable index captured by a `next` handle is post-incremented
on every non-aborted invocation, so calling the same retained handle a
second time does not re-target its minted index: after one invocation
the handle's cell is one past the previous one, and invoking the handle
again is exactly invoking a continuation for the next index. -/
theorem c9_handle_post_increments {V : Type} (fuel : Nat) (m : Machine V) (cell : Nat)
    (arg : JVal V) (hab : m.isAborted = false) :
    (run (fuel+1) m (Call.nxt cell arg)).cell = cell + 1
    ∧ ∀ (fuel2 : Nat) (arg2 : JVal V),
        run fuel2 (run (fuel+1) m (Call.nxt cell arg)).m
            (Call.nxt (run (fuel+1) m (Call.nxt cell arg)).cell arg2)
          = run fuel2 (run (fuel+1) m (Call.nxt cell arg)).m (Call.nxt (cell + 1) arg2) := by
  have h1 : (run (fuel+1) m (Call.nxt cell arg)).cell = cell + 1 := by
    simp only [run, hab]
    rcases hupd : updateVal m.items cell arg with e | its
    · simp [hupd]
    · rcases its with _ | l'
      · simp [hupd]
      · by_cases hc : cell + 1 < l'.length
        · simp [hupd, hc]
        · simp [hupd, hc]
  exact ⟨h1, fun fuel2 arg2 => by rw [h1]⟩

/-- C9 witness: a live run over `[some 1, some 2]`; the handle minted at
index 0, invoked once, reports cell 1, and its second invocation
coincides with invoking the index-1 continuation. -/
theorem c9_handle_post_increments_witness :
    (⟨some [some 1, some 2], some (1, haltFn), DoneSlot.cb 2, false⟩ : Machine Nat).isAborted
      = false
    ∧ ((run 4 (⟨some [some 1, some 2], some (1, haltFn), DoneSlot.cb 2, false⟩ : Machine Nat)
          (Call.nxt 0 (some 9))).cell = 0 + 1
      ∧ ∀ (fuel2 : Nat) (arg2 : JVal Nat),
          run fuel2
              (run 4 (⟨some [some 1, some 2], some (1, haltFn), DoneSlot.cb 2, false⟩ :
                Machine Nat) (Call.nxt 0 (some 9))).m
              (Call.nxt (run 4 (⟨some [some 1, some 2], some (1, haltFn), DoneSlot.cb 2,
                false⟩ : Machine Nat) (Call.nxt 0 (some 9))).cell arg2)
            = run fuel2
                (run 4 (⟨some [some 1, some 2], some (1, haltFn), DoneSlot.cb 2, false⟩ :
                  Machine Nat) (Call.nxt 0 (some 9))).m (Call.nxt (0 + 1) arg2)) :=
  ⟨rfl, c9_handle_post_increments 3
    (⟨some [some 1, some 2], some (1, haltFn), DoneSlot.cb 2, false⟩ : Machine Nat)
    0 (some 9) rfl⟩

/-- C10: an explicitly-undefined argument is the very same argument value
as an absent one (`none`, JS `undefined`), and it stores nothing:
`updateVal` returns the items unchanged, an abort handle invoked with it
leaves `items` entirely unchanged, and an advance handle invoked with it
leaves the element at its bound cell unchanged, whatever the triggered
rest of the walk does at later indices — so `undefined` is never stored
as a replacement value. -/
theorem c10_undefined_arg_no_write {V : Type} (fuel : Nat) (m : Machine V) (cell : Nat)
    (l : List (JVal V)) (hm : m.items = some l) :
    (∀ (its : Option (List (JVal V))) (i : Nat), updateVal its i none = Except.ok its)
    ∧ (∀ (m2 : Machine V) (i : Nat), (invokeAbort m2 i none).m.items = m2.items)
    ∧ (∃ l', (run fuel m (Call.nxt cell none)).m.items = some l'
        ∧ jsIndex l' cell = jsIndex l cell) := by
  refine ⟨fun _ _ => rfl, fun m2 i => rfl, ?_⟩
  obtain ⟨l', h1, h2⟩ := run_preserves_low fuel m (Call.nxt cell none) l hm
  exact ⟨l', h1, h2 cell (by simp [lowIdx])⟩

/-- C10 witness: a live run over `[some 3]`; invoking the index-0 handle
with the undefined argument completes the walk but leaves the element at
index 0 unchanged. -/
theorem c10_undefined_arg_no_write_witness :
    (⟨some [some 3], some (1, haltFn), DoneSlot.cb 2, false⟩ : Machine Nat).items
      = some [some 3]
    ∧ ((∀ (its : Option (List (JVal Nat))) (i : Nat), updateVal its i none = Except.ok its)
      ∧ (∀ (m2 : Machine Nat) (i : Nat), (invokeAbort m2 i none).m.items = m2.items)
      ∧ (∃ l', (run 4 (⟨some [some 3], some (1, haltFn), DoneSlot.cb 2, false⟩ : Machine Nat)
            (Call.nxt 0 none)).m.items = some l'
          ∧ jsIndex l' 0 = jsIndex [some 3] 0)) :=
  ⟨rfl, c10_undefined_arg_no_write 4
    (⟨some [some 3], some (1, haltFn), DoneSlot.cb 2, false⟩ : Machine Nat) 0 [some 3] rfl⟩

/-- C3: for every non-empty sequence and a step policy that at each index
synchronously calls `advance` — with the replacement chosen by `r`, or
with no value when `r` yields `none` — the done callback is called
exactly once, with the sequence in the same order in which each position
holds its replacement if one was passed and its original value
otherwise; in particular `items = [1,2,3]` with
`step = (i, v, next) => next(v*2)` yields `done([2,4,6])`. -/
theorem c3_synchronous_advance_walk {V : Type} (prev : Machine V)
    (r : Nat → JVal V → JVal V) (tag dt fuel : Nat) (l : List (JVal V))
    (hl : l ≠ []) (hfuel : 2 * l.length ≤ fuel) :
    (iterate prev (ItemsArg.arr l) (FnArg.fn tag (replAll r)) (DoneArg.cb dt) fuel
        = ⟨⟨some (applyRepl r 0 l), some (tag, replAll r), DoneSlot.cb dt, false⟩,
           stepEvs tag 0 l ++ [Ev.doneCall (DoneSlot.cb dt) (some (applyRepl r 0 l))],
           none⟩
      ∧ doneEvCount
          (stepEvs tag 0 l ++ [Ev.doneCall (DoneSlot.cb dt) (some (applyRepl r 0 l))]) = 1)
    ∧ ((iterate (resetMachine : Machine Nat) (ItemsArg.arr [some 1, some 2, some 3])
          (FnArg.fn 1 (replAll fun _ v => v.map fun k => k * 2)) (DoneArg.cb 2) 8).evs
        = [Ev.stepCall 1 0 (some 1), Ev.stepCall 1 1 (some 2), Ev.stepCall 1 2 (some 3),
           Ev.doneCall (DoneSlot.cb 2) (some [some 2, some 4, some 6])]
      ∧ (iterate (resetMachine : Machine Nat) (ItemsArg.arr [some 1, some 2, some 3])
          (FnArg.fn 1 (replAll fun _ v => v.map fun k => k * 2)) (DoneArg.cb 2) 8).m.items
        = some [some 2, some 4, some 6]) := by
  have h0 : l.length ≠ 0 := fun h => hl (List.length_eq_zero.mp h)
  have hrun := run_replAll r tag (DoneSlot.cb dt) (fun h => DoneSlot.noConfusion h)
    l [] fuel hl hfuel
  simp only [List.nil_append, List.length_nil] at hrun
  refine ⟨⟨?_, ?_⟩, by decide, by decide⟩
  · simp only [iterate, iterateGo, h0]
    rw [if_pos h0]
    rw [hrun]
  · rw [doneEvCount_append, doneEvCount_stepEvs tag 0 l]
    rfl

/-- C3 witness: the run over `[some 5]` with the policy that always
advances with no value, and the concrete doubling scenario. -/
theorem c3_synchronous_advance_walk_witness :
    (([some (5:Nat)] : List (JVal Nat)) ≠ []
      ∧ 2 * ([some (5:Nat)] : List (JVal Nat)).length ≤ 2)
    ∧ ((iterate (resetMachine : Machine Nat) (ItemsArg.arr [some 1, some 2, some 3])
          (FnArg.fn 1 (replAll fun _ v => v.map fun k => k * 2)) (DoneArg.cb 2) 8).evs
        = [Ev.stepCall 1 0 (some 1), Ev.stepCall 1 1 (some 2), Ev.stepCall 1 2 (some 3),
           Ev.doneCall (DoneSlot.cb 2) (some [some 2, some 4, some 6])]
      ∧ (iterate (resetMachine : Machine Nat) (ItemsArg.arr [some 1, some 2, some 3])
          (FnArg.fn 1 (replAll fun _ v => v.map fun k => k * 2)) (DoneArg.cb 2) 8).m.items
        = some [some 2, some 4, some 6]) :=
  ⟨⟨by decide, by decide⟩,
    (c3_synchronous_advance_walk (resetMachine : Machine Nat) (fun _ _ => none) 1 2 2
      [some 5] (by decide) (by decide)).2⟩

/-- C4: if the step policy advances (with no value) below index `i0` and
calls the abort handle at `i0` (with value `a`, possibly undefined),
then done is called immediately after the step at `i0`, exactly once,
with the sequence updated only at `i0` when a value was supplied
(original values below `i0`, original unvisited values above), and no
step call is ever made for an index greater than `i0`. -/
theorem c4_abort_stops_walk {V : Type} (prev : Machine V) (i0 : Nat) (a : JVal V)
    (tag dt fuel : Nat) (l : List (JVal V)) (hi : i0 < l.length)
    (hfuel : 2 * l.length ≤ fuel) :
    (iterate prev (ItemsArg.arr l) (FnArg.fn tag (abortAt i0 a)) (DoneArg.cb dt) fuel
        = ⟨⟨some (jsUpd l i0 a), some (tag, abortAt i0 a), DoneSlot.cb dt, true⟩,
           stepEvs tag 0 (l.take (i0 + 1))
             ++ [Ev.doneCall (DoneSlot.cb dt) (some (jsUpd l i0 a))], none⟩)
    ∧ (∀ (t j : Nat) (v : JVal V),
        Ev.stepCall t j v ∈ stepEvs tag 0 (l.take (i0 + 1))
            ++ [Ev.doneCall (DoneSlot.cb dt) (some (jsUpd l i0 a))] → j ≤ i0)
    ∧ doneEvCount (stepEvs tag 0 (l.take (i0 + 1))
        ++ [Ev.doneCall (DoneSlot.cb dt) (some (jsUpd l i0 a))]) = 1 := by
  have h0 : l.length ≠ 0 := by omega
  have hrun := run_abortAt i0 a tag dt l [] fuel (by simp) (by simpa using hi) hfuel
  simp only [List.nil_append, List.length_nil, Nat.sub_zero] at hrun
  refine ⟨?_, ?_, ?_⟩
  · simp only [iterate, iterateGo, h0]
    rw [if_pos h0]
    rw [hrun]
  · intro t j v h
    rcases List.mem_append.mp h with h | h
    · have := mem_stepEvs h
      have htl : (l.take (i0 + 1)).length = i0 + 1 := by
        rw [List.length_take]
        omega
      omega
    · simp at h
  · rw [doneEvCount_append, doneEvCount_stepEvs tag 0 (l.take (i0 + 1))]
    rfl

/-- C4 witness: the spec's abort scenario, `[10, 20, 30]` with an abort
at index 1 carrying replacement 99: done receives `[10, 99, 30]` and
index 2 is never visited. -/
theorem c4_abort_stops_walk_witness :
    (1 < ([some (10:Nat), some 20, some 30] : List (JVal Nat)).length
      ∧ 2 * ([some (10:Nat), some 20, some 30] : List (JVal Nat)).length ≤ 8)
    ∧ iterate (resetMachine : Machine Nat) (ItemsArg.arr [some 10, some 20, some 30])
        (FnArg.fn 1 (abortAt 1 (some 99))) (DoneArg.cb 2) 8
      = ⟨⟨some (jsUpd [some 10, some 20, some 30] 1 (some 99)),
           some (1, abortAt 1 (some 99)), DoneSlot.cb 2, true⟩,
         stepEvs 1 0 ([some 10, some 20, some 30].take 2)
           ++ [Ev.doneCall (DoneSlot.cb 2)
                (some (jsUpd [some 10, some 20, some 30] 1 (some 99)))],
         none⟩ :=
  ⟨⟨by decide, by decide⟩,
    (c4_abort_stops_walk (resetMachine : Machine Nat) 1 (some 99) 1 2 8
      [some 10, some 20, some 30] (by decide) (by decide)).1⟩

/-- C2 (amended): the double-invocation protection of a retained
`advance` handle holds only for aborted runs. If the run has aborted,
invoking a retained handle is a complete no-op: no element is mutated,
the captured index is not even incremented (the post-increment sits
inside the guard), and neither the step function nor done is called.
After a natural finish, however, the guard does not trigger: a retained
handle invoked again (here with no value, so without mutation) still
advances its index and invokes the done callback again — and with a
value it also mutates, see the counterexample. -/
theorem c2_advance_inert_only_after_abort {V : Type} (fuel : Nat) (m : Machine V)
    (cell : Nat) (arg : JVal V) (l : List (JVal V)) (t : Nat) :
    (m.isAborted = true → run (fuel+1) m (Call.nxt cell arg) = ⟨m, cell, [], none⟩)
    ∧ (m.isAborted = false → m.items = some l → m.done = DoneSlot.cb t →
        l.length ≤ cell →
        run (fuel+1) m (Call.nxt cell none)
          = ⟨m, cell + 1, [Ev.doneCall (DoneSlot.cb t) (some l)], none⟩) := by
  constructor
  · intro hab
    exact run_nxt_aborted fuel m cell arg hab
  · intro hab hm hd hcell
    obtain ⟨mi, mf, md, mb⟩ := m
    simp only at hm hd hab
    subst hm; subst hd; subst hab
    have hnc : ¬ cell + 1 < l.length := by omega
    simp [run, updateVal, hnc, finishRun]

/-- C2 witness: (a) a retained handle with cell 1 invoked against an
aborted run is a no-op; (b) a handle invoked with no value against a
naturally finished run (not aborted, index past the end) re-invokes the
done callback. -/
theorem c2_advance_inert_only_after_abort_witness :
    ((⟨some [some 1], some (1, haltFn), DoneSlot.cb 2, true⟩ : Machine Nat).isAborted = true
      ∧ run 4 (⟨some [some 1], some (1, haltFn), DoneSlot.cb 2, true⟩ : Machine Nat)
          (Call.nxt 1 (some 9))
        = ⟨⟨some [some 1], some (1, haltFn), DoneSlot.cb 2, true⟩, 1, [], none⟩)
    ∧ ((⟨some [some 1], some (1, haltFn), DoneSlot.cb 2, false⟩ : Machine Nat).isAborted = false
      ∧ run 4 (⟨some [some 1], some (1, haltFn), DoneSlot.cb 2, false⟩ : Machine Nat)
          (Call.nxt 1 none)
        = ⟨⟨some [some 1], some (1, haltFn), DoneSlot.cb 2, false⟩, 1 + 1,
           [Ev.doneCall (DoneSlot.cb 2) (some [some 1])], none⟩) :=
  ⟨⟨rfl,
    (c2_advance_inert_only_after_abort 3
      (⟨some [some 1], some (1, haltFn), DoneSlot.cb 2, true⟩ : Machine Nat)
      1 (some 9) [some 1] 2).1 rfl⟩,
   ⟨rfl,
    (c2_advance_inert_only_after_abort 3
      (⟨some [some 1], some (1, haltFn), DoneSlot.cb 2, false⟩ : Machine Nat)
      1 (some 9) [some 1] 2).2 rfl rfl rfl (by decide)⟩⟩

/-- C2 counterexample: a run over `[some 1]` that advances once and
finishes naturally (done fires, `isAborted` stays false). The handle
minted at index 0 was post-incremented to cell 1 by its invocation;
calling it again with value 9 mutates `items` (appending, the array
becomes `[some 1, some 9]`) and invokes done a second time — refuting
the claim that after a natural finish no mutation occurs and done is not
invoked again. -/
theorem c2_counterexample :
    (run 4 (⟨some [some 1], some (1, replAll fun _ _ => none), DoneSlot.cb 2, false⟩ :
        Machine Nat) (Call.iter 0)).evs
      = [Ev.stepCall 1 0 (some 1), Ev.doneCall (DoneSlot.cb 2) (some [some 1])]
    ∧ (run 4 (⟨some [some 1], some (1, replAll fun _ _ => none), DoneSlot.cb 2, false⟩ :
        Machine Nat) (Call.iter 0)).m.isAborted = false
    ∧ (run 4 (run 4 (⟨some [some 1], some (1, replAll fun _ _ => none), DoneSlot.cb 2,
          false⟩ : Machine Nat) (Call.iter 0)).m (Call.nxt 1 (some 9))).m.items
      = some [some 1, some 9]
    ∧ (run 4 (run 4 (⟨some [some 1], some (1, replAll fun _ _ => none), DoneSlot.cb 2,
          false⟩ : Machine Nat) (Call.iter 0)).m (Call.nxt 1 (some 9))).evs
      = [Ev.doneCall (DoneSlot.cb 2) (some [some 1, some 9])] :=
  ⟨rfl, rfl, rfl, rfl⟩

/-- C1 (amended): the code does not isolate runs. A new `iterate` call
leaves the shared state with `isAborted = false`, so a stale handle from
a previous run, invoked afterwards, acts on the new run exactly as a
live handle bound to the same index would: a stale `advance` handle
mutates the new run's items at its cell, advances, and (here, with its
cell at the last index) invokes the new run's done callback; a stale
abort handle aborts the new run, mutates at its bound index, and invokes
the new run's done callback. -/
theorem c1_stale_handles_act_on_new_run {V : Type} (prev : Machine V) (l : List (JVal V))
    (tag dt fuel fuel2 cell : Nat) (v : V) (hl : l ≠ []) (hcell : cell + 1 = l.length) :
    (iterate prev (ItemsArg.arr l) (FnArg.fn tag haltFn) (DoneArg.cb dt) (fuel+1)).m
      = ⟨some l, some (tag, haltFn), DoneSlot.cb dt, false⟩
    ∧ run (fuel2+2) (⟨some l, some (tag, haltFn), DoneSlot.cb dt, false⟩ : Machine V)
        (Call.nxt cell (some v))
      = ⟨⟨some (jsSet l cell (some v)), some (tag, haltFn), DoneSlot.cb dt, false⟩, cell + 1,
         [Ev.doneCall (DoneSlot.cb dt) (some (jsSet l cell (some v)))], none⟩
    ∧ invokeAbort (⟨some l, some (tag, haltFn), DoneSlot.cb dt, false⟩ : Machine V) cell
        (some v)
      = ⟨⟨some (jsSet l cell (some v)), some (tag, haltFn), DoneSlot.cb dt, true⟩,
         [Ev.doneCall (DoneSlot.cb dt) (some (jsSet l cell (some v)))], none⟩ := by
  have h0 : l.length ≠ 0 := fun h => hl (List.length_eq_zero.mp h)
  have hcl : cell < l.length := by omega
  have hlen : (jsUpd l cell (some v)).length = l.length :=
    jsUpd_length_of_lt l cell (some v) hcl
  refine ⟨?_, ?_, ?_⟩
  · simp only [iterate, iterateGo]
    rw [if_pos h0]
    simp [run, haltFn]
  · have hb : ¬ cell + 1 < (jsUpd l cell (some v)).length := by omega
    have h := run_nxt_haltFn_finish fuel2
      (⟨some l, some (tag, haltFn), DoneSlot.cb dt, false⟩ : Machine V)
      l tag dt cell (some v) rfl rfl rfl rfl hb
    simpa [jsUpd] using h
  · have h := invokeAbort_eq
      (⟨some l, some (tag, haltFn), DoneSlot.cb dt, false⟩ : Machine V)
      l dt cell (some v) rfl rfl
    simpa [jsUpd] using h

/-- C1 witness: the new run holds `[some 10]`; a stale handle with cell 0
invoked with value 99 overwrites the new run's element and fires the new
run's done callback. -/
theorem c1_stale_handles_act_on_new_run_witness :
    (([some (10:Nat)] : List (JVal Nat)) ≠ []
      ∧ 0 + 1 = ([some (10:Nat)] : List (JVal Nat)).length)
    ∧ run 5 (⟨some [some 10], some (2, haltFn), DoneSlot.cb 2, false⟩ : Machine Nat)
        (Call.nxt 0 (some 99))
      = ⟨⟨some (jsSet [some 10] 0 (some 99)), some (2, haltFn), DoneSlot.cb 2, false⟩, 0 + 1,
         [Ev.doneCall (DoneSlot.cb 2) (some (jsSet [some 10] 0 (some 99)))], none⟩ :=
  ⟨⟨by decide, by decide⟩,
    (c1_stale_handles_act_on_new_run (resetMachine : Machine Nat) [some 10] 2 2 3 3 0 99
      (by decide) (by decide)).2.1⟩

/-- C1 counterexample: run 1 (`iterate` over `[some 5]`, done tag 1)
suspends at index 0, retaining its handle, whose cell is still 0. Run 2
(`iterate` over `[some 10]`, step tag 2, done tag 2) then begins and
suspends at its index 0. Invoking the stale run-1 handle now overwrites
the new run's `items[0]` with 99 and invokes the new run's done callback
with the mutated array — refuting the claim that a stale handle must not
mutate, advance, or complete the new run. -/
theorem c1_counterexample :
    (iterate (iterate (resetMachine : Machine Nat) (ItemsArg.arr [some 5])
        (FnArg.fn 1 haltFn) (DoneArg.cb 1) 5).m
      (ItemsArg.arr [some 10]) (FnArg.fn 2 haltFn) (DoneArg.cb 2) 5).m.items = some [some 10]
    ∧ (run 5 (iterate (iterate (resetMachine : Machine Nat) (ItemsArg.arr [some 5])
          (FnArg.fn 1 haltFn) (DoneArg.cb 1) 5).m
        (ItemsArg.arr [some 10]) (FnArg.fn 2 haltFn) (DoneArg.cb 2) 5).m
        (Call.nxt 0 (some 99))).m.items = some [some 99]
    ∧ (run 5 (iterate (iterate (resetMachine : Machine Nat) (ItemsArg.arr [some 5])
          (FnArg.fn 1 haltFn) (DoneArg.cb 1) 5).m
        (ItemsArg.arr [some 10]) (FnArg.fn 2 haltFn) (DoneArg.cb 2) 5).m
        (Call.nxt 0 (some 99))).evs
      = [Ev.doneCall (DoneSlot.cb 2) (some [some 99])] :=
  ⟨rfl, rfl, rfl⟩

/-- C7: during a run — while the done callback has not fired — no
sequence of invocations of the run's minted advance and abort handles
changes the length of `items`: every reachable still-active world holds
an array of the original length, and even one further handle invocation
(including the one that completes or aborts the run) leaves an array of
the original length, because the run's own handles only ever write in
bounds. -/
theorem c7_length_fixed_during_run {V : Type} (l0 : List (JVal V)) (tag dt fuel : Nat)
    (w : World V) (hl : l0 ≠ []) (hreach : Reach (initW l0 tag dt (fuel+1)) w)
    (hdf : w.doneFired = false) :
    (∃ l', w.m.items = some l' ∧ l'.length = l0.length)
    ∧ (∀ w', WStep w w' → ∃ l2, w'.m.items = some l2 ∧ l2.length = l0.length) := by
  have hinv := winv_reach l0 tag dt fuel hl w hreach
  obtain ⟨l', h1, h2, h3, h4⟩ := hinv
  refine ⟨⟨l', h1, (h4 hdf).1⟩, fun w' hs => ?_⟩
  exact (winv_step l0 tag dt w w' ⟨l', h1, h2, h3, h4⟩ hs).2 hdf

/-- C7 witness: the just-started run over `[some 3]`: the initial world
is reachable (empty invocation sequence), still active, holds an array
of length 1, and any single handle invocation from it keeps length 1. -/
theorem c7_length_fixed_during_run_witness :
    (([some (3:Nat)] : List (JVal Nat)) ≠ []
      ∧ Reach (initW [some (3:Nat)] 1 2 1) (initW [some (3:Nat)] 1 2 1)
      ∧ (initW [some (3:Nat)] 1 2 1).doneFired = false)
    ∧ ((∃ l', (initW [some (3:Nat)] 1 2 1).m.items = some l'
          ∧ l'.length = [some (3:Nat)].length)
      ∧ (∀ w', WStep (initW [some (3:Nat)] 1 2 1) w' →
          ∃ l2, w'.m.items = some l2 ∧ l2.length = [some (3:Nat)].length)) :=
  ⟨⟨by decide, Relation.ReflTransGen.refl, rfl⟩,
    c7_length_fixed_during_run [some 3] 1 2 0 (initW [some 3] 1 2 1)
      (by decide) Relation.ReflTransGen.refl rfl⟩

end TinyIterator
